import Mathlib

/-!
# NanoWatchdog — verification of the persistent event log

Shallow embedding of the Arduino library sources:
  * `nwEvent.cpp` / `nwEvent.h`   — the event record and its (de)serialization;
  * `nwEEPROM.cpp` / `nwEEPROM.h` — the EEPROM layout and the reset-event ring;
  * `nwReason.cpp` / `nwReason.h` — the reason-code labels.

The target MCU is an Arduino Nano (AVR): `int` is a 16-bit two's complement
integer, `time_t` is a 4-byte unsigned integer, `byte`/`char` are 8-bit, the
`nwEventStr` struct has no padding (alignment 1), and `EEPROM.get`/`EEPROM.put`
copy the raw little-endian bytes of the object.

The EEPROM is modelled as a byte-addressed memory `Int → Nat` (each physical
cell holds a value < 256; theorems carry that as a hypothesis), paired with a
trace of every address accessed (reads and writes), so that claims about which
addresses an operation touches can be stated.
-/

set_option maxRecDepth 4000

namespace NanoWatchdog

/-- A byte-addressed memory: the byte stored at each address. -/
def Mem : Type := Int → Nat

/-- The EEPROM state: memory contents plus the trace of accessed addresses
(each address is appended once per byte read or written, in order). -/
structure Nvm where
  mem : Mem
  acc : List Int

/-- Read `n` consecutive bytes starting at address `a`. -/
def getBytes (m : Mem) (a : Int) : Nat → List Nat
  | 0 => []
  | n + 1 => m a :: getBytes m (a + 1) n

/-- Write the bytes `bs` at consecutive addresses starting at `a`. -/
def putBytes (m : Mem) (a : Int) : List Nat → Mem
  | [] => m
  | b :: bs => putBytes (fun x => if x = a then b else m x) (a + 1) bs

/-- The list of `n` consecutive addresses starting at `a`. -/
def accList (a : Int) (n : Nat) : List Int :=
  (List.range n).map (fun k => a + Int.ofNat k)

/-- Read `n` bytes at `a`, recording the accessed addresses. -/
def readBytesN (s : Nvm) (a : Int) (n : Nat) : List Nat × Nvm :=
  (getBytes s.mem a n, ⟨s.mem, s.acc ++ accList a n⟩)

/-- Write the bytes `bs` at `a`, recording the accessed addresses. -/
def writeBytesN (s : Nvm) (a : Int) (bs : List Nat) : Nvm :=
  ⟨putBytes s.mem a bs, s.acc ++ accList a bs.length⟩

/-- Little-endian encoding of `v` on `n` bytes (how AVR lays out a
multi-byte integer in memory, hence in EEPROM via `EEPROM.put`). -/
def encodeLE : Nat → Nat → List Nat
  | 0, _ => []
  | k + 1, v => v % 256 :: encodeLE k (v / 256)

/-- Little-endian decoding of a byte list. -/
def decodeLE : List Nat → Nat
  | [] => 0
  | b :: bs => b + 256 * decodeLE bs

/-- Decode two bytes as a little-endian 16-bit two's complement `int`
(the AVR `int` read back by `EEPROM.get( adr, count )`). -/
def decodeInt16 (b0 b1 : Nat) : Int :=
  let u : Nat := b0 + 256 * b1
  if u < 32768 then (u : Int) else (u : Int) - 65536

/-- 16-bit two's complement wrap-around, the de-facto behaviour of AVR gcc
on overflowing `int` arithmetic. -/
def wrap16 (x : Int) : Int :=
  (x + 32768).emod 65536 - 32768

/-! ## The event record (`nwEvent.h` / `nwEvent.cpp`) -/

/-- `nwVersionSize` from `NanoWatchdog.h`: max size of the version string,
including the null terminator. -/
def nwVersionSize : Nat := 32

/-- `nwVersionString` from `NanoWatchdog.h`, as its ASCII bytes. -/
def nwVersionString : List Nat := "NanoWatchdog v11.2017".data.map Char.toNat

/-- `NW_REASON_INIT` from `nwReason.h`. -/
def NW_REASON_INIT : Int := 0
/-- `NW_REASON_NOPING` from `nwReason.h`. -/
def NW_REASON_NOPING : Int := 1
/-- `NW_REASON_DEFAULT` from `nwReason.h` (alias of `NW_REASON_NOPING`). -/
def NW_REASON_DEFAULT : Int := NW_REASON_NOPING
/-- `NW_REASON_COMMAND_START` from `nwReason.h`. -/
def NW_REASON_COMMAND_START : Int := 16

/-- The in-memory `nwEvent` object. `_version` is `char[32]` (a list of
bytes), `_time` is the 4-byte `time_t` (a natural number, physically
< 2^32), `_reason` is the 16-bit `int`, `_ack` is the `bool`. -/
structure nwEvent where
  version : List Nat
  time : Nat
  reason : Int
  ack : Bool

/-- `nwEvent::setup`: zero the version buffer, copy `nwVersionString` up to
and including its null byte, set time to `now()` (a parameter here), reason
to `NW_REASON_DEFAULT` and ack to `false`. -/
def nwEvent.setup (nowT : Nat) : nwEvent :=
  { version := nwVersionString ++ List.replicate (nwVersionSize - nwVersionString.length) 0
  , time := nowT
  , reason := NW_REASON_DEFAULT
  , ack := false }

/-- The default constructor `nwEvent::nwEvent()`. -/
def nwEvent.mkDefault (nowT : Nat) : nwEvent := nwEvent.setup nowT

/-- The constructor `nwEvent::nwEvent( int reason )`. -/
def nwEvent.mkWithReason (nowT : Nat) (reason : Int) : nwEvent :=
  { nwEvent.setup nowT with reason := reason }

/-- `nwEvent::acknowledge`: set the acknowledgment indicator. -/
def nwEvent.acknowledge (e : nwEvent) (a : Bool) : nwEvent :=
  { e with ack := a }

/-- `nwEvent::isNull`: true iff `_time == 0`. -/
def nwEvent.isNull (e : nwEvent) : Bool := e.time == 0

/-- The `ack_reason` byte computed by `nwEvent::writeToEEPROM`:
`ev.ack_reason = _reason;` (an `int`-to-`byte` conversion, i.e. the value
modulo 256) followed by `ev.ack_reason |= ( _ack ? B10000000 : 0 );`. -/
def packAckReason (reason : Int) (ack : Bool) : Nat :=
  (reason.emod 256).toNat ||| (if ack then 128 else 0)

/-- The 37 bytes of the serialized `nwEventStr`: 32 version bytes, the
4 little-endian bytes of `time`, then the packed `ack_reason` byte. -/
def nwEventSer (e : nwEvent) : List Nat :=
  e.version.map (· % 256) ++ encodeLE 4 e.time ++ [packAckReason e.reason e.ack]

/-- `nwEvent::readFromEEPROM` field extraction from the 37 raw bytes:
all 32 version bytes copied verbatim, `_time` decoded, then
`_reason = ev.ack_reason & B01111111` and `_ack = ev.ack_reason >> 7`. -/
def nwEventDeser (bs : List Nat) : nwEvent :=
  { version := bs.take 32
  , time := decodeLE ((bs.drop 32).take 4)
  , reason := ((bs.getD 36 0 &&& 127 : Nat) : Int)
  , ack := bs.getD 36 0 >>> 7 != 0 }

/-- `nwEvent::readFromEEPROM( adr )`: `EEPROM.get( adr, ev )` of the 37-byte
struct, then field extraction. -/
def nwEvent.readFromEEPROM (s : Nvm) (adr : Int) : nwEvent × Nvm :=
  let p := readBytesN s adr 37
  (nwEventDeser p.1, p.2)

/-- `nwEvent::writeToEEPROM( adr )`: serialize the fields into an
`nwEventStr` and `EEPROM.put( adr, ev )` its 37 bytes. -/
def nwEvent.writeToEEPROM (e : nwEvent) (adr : Int) (s : Nvm) : Nvm :=
  writeBytesN s adr (nwEventSer e)

/-! ## The EEPROM layout and ring operations (`nwEEPROM.h` / `nwEEPROM.cpp`) -/

/-- `sizeof( nwEventStr )`: `char[32]` + 4-byte `time_t` + 1-byte
`ack_reason`, with no padding on AVR. -/
def nwEventStrSize : Nat := nwVersionSize + 4 + 1

/-- `sizeof( int )` on the target MCU. -/
def nwIntSize : Nat := 2

/-- `nwInitEventAdr = 0`. -/
def nwInitEventAdr : Int := 0

/-- `nwResetCountAdr = nwInitEventAdr + nwEventStrSize`. -/
def nwResetCountAdr : Int := nwInitEventAdr + nwEventStrSize

/-- `nwResetEventAdr = nwResetCountAdr + sizeof( int )`. -/
def nwResetEventAdr : Int := nwResetCountAdr + nwIntSize

/-- `NW_MAX_RESET_EVENT`. -/
def NW_MAX_RESET_EVENT : Int := 10

/-- The address `nwResetEventAdr + index*nwEventStrSize` of ring slot
`index`, as computed in 16-bit `int` arithmetic. -/
def slotAdr (index : Int) : Int :=
  wrap16 (nwResetEventAdr + index * nwEventStrSize)

/-- `nwEEPROMInitEventGet`. -/
def nwEEPROMInitEventGet (s : Nvm) : nwEvent × Nvm :=
  nwEvent.readFromEEPROM s nwInitEventAdr

/-- `nwEEPROMInitEventSet`. -/
def nwEEPROMInitEventSet (ev : nwEvent) (s : Nvm) : Nvm :=
  ev.writeToEEPROM nwInitEventAdr s

/-- `nwEEPROMResetEventCountGet`: `EEPROM.get( nwResetCountAdr, count )`
with `count` a 16-bit signed `int` (two little-endian bytes). -/
def nwEEPROMResetEventCountGet (s : Nvm) : Int × Nvm :=
  let p := readBytesN s nwResetCountAdr 2
  (decodeInt16 (p.1.getD 0 0) (p.1.getD 1 0), p.2)

/-- `nwEEPROMResetEventGet( index )`. -/
def nwEEPROMResetEventGet (s : Nvm) (index : Int) : nwEvent × Nvm :=
  nwEvent.readFromEEPROM s (slotAdr index)

/-- `nwEEPROMResetEventSet( ev, index )`. -/
def nwEEPROMResetEventSet (ev : nwEvent) (index : Int) (s : Nvm) : Nvm :=
  ev.writeToEEPROM (slotAdr index) s

/-- `EEPROM.put( nwResetCountAdr, count )`: store the two little-endian
bytes of the 16-bit two's complement representation of `count`. -/
def nwResetCountPut (count : Int) (s : Nvm) : Nvm :=
  writeBytesN s nwResetCountAdr (encodeLE 2 (count.emod 65536).toNat)

/-- The shift loop of `nwEEPROMResetEventSetNew`:
`for( int i=count ; i>0 ; --i ){ ev_temp = Get( i-1 ); Set( ev_temp, i ); }`.
`k` is the number of remaining iterations (`i.toNat` at entry), `i` the
current value of the loop variable. -/
def shiftLoop (s : Nvm) (i : Int) : Nat → Nvm
  | 0 => s
  | k + 1 =>
    let p := nwEEPROMResetEventGet s (i - 1)
    shiftLoop (nwEEPROMResetEventSet p.1 i p.2) (i - 1) k

/-- `nwEEPROMResetEventSetNew( ev, index )`: read the count, clamp it to 9
when it equals `NW_MAX_RESET_EVENT`, shift slots down, write `ev` at slot 0,
store `count + 1`. The `index` parameter is never used. -/
def nwEEPROMResetEventSetNew (ev : nwEvent) (index : Int) (s : Nvm) : Nvm :=
  let p := nwEEPROMResetEventCountGet s
  let c : Int := if p.1 == NW_MAX_RESET_EVENT then p.1 - 1 else p.1
  let s2 := shiftLoop p.2 c c.toNat
  let s3 := nwEEPROMResetEventSet ev 0 s2
  nwResetCountPut (c + 1) s3

/-! ## The reason-code labels (`nwReason.cpp`) -/

/-- `nwReasonString( code )`. -/
def nwReasonString (code : Int) : String :=
  if code = NW_REASON_INIT then "initialization"
  else if code = NW_REASON_NOPING then "no ping"
  else if NW_REASON_COMMAND_START ≤ code then "external command"
  else "unknown reason code"

/-- The acknowledge-slot-`i` sequence described in the spec: read slot `i`,
set its acknowledgment flag, write it back in place with
`nwEEPROMResetEventSet( ev, i )`. -/
def ackSlot (i : Int) (s : Nvm) : Nvm :=
  let p := nwEEPROMResetEventGet s i
  nwEEPROMResetEventSet (p.1.acknowledge true) i p.2

/-- The packed trailing byte as the spec's words describe it:
`(acked << 7) | (reason & 0x7F)`. -/
def specPackedByte (reason : Int) (ack : Bool) : Nat :=
  ((if ack then 1 else 0) <<< 7) ||| (reason.emod 128).toNat

/-- A version buffer is null-terminated when one of its bytes is zero. -/
def versionNullTerminated (v : List Nat) : Prop := 0 ∈ v

instance (v : List Nat) : Decidable (versionNullTerminated v) := by
  unfold versionNullTerminated; infer_instance

/-! ## Sample states and records used by witnesses and counterexamples -/

/-- An all-zero EEPROM (count = 0, every slot null). -/
def zeroNvm : Nvm := ⟨fun _ => 0, []⟩

/-- An EEPROM whose 2-byte reset count reads as `0xFFFF` (erased-flash
style), all other bytes zero. -/
def ffCountNvm : Nvm := ⟨fun x => if x = 37 ∨ x = 38 then 255 else 0, []⟩

/-- An EEPROM filled with the byte `0x41` (`'A'`). -/
def allANvm : Nvm := ⟨fun _ => 65, []⟩

/-- A sample event: null version, time 0, reason 0, not acknowledged. -/
def sampleEvent : nwEvent := ⟨List.replicate 32 0, 0, 0, false⟩

/-- A sample event whose in-memory reason field is 128 (bit 7 set). -/
def reason128Event : nwEvent := ⟨List.replicate 32 0, 0, 128, false⟩

/-! ## Basic memory lemmas -/

theorem getBytes_length (m : Mem) (a : Int) (n : Nat) :
    (getBytes m a n).length = n := by
  induction n generalizing a with
  | zero => rfl
  | succ n ih => simp [getBytes, ih]

theorem getBytes_congr (m₁ m₂ : Mem) (a : Int) (n : Nat)
    (h : ∀ k : Nat, k < n → m₁ (a + k) = m₂ (a + k)) :
    getBytes m₁ a n = getBytes m₂ a n := by
  induction n generalizing a with
  | zero => rfl
  | succ n ih =>
    simp only [getBytes]
    congr 1
    · have := h 0 (Nat.succ_pos n)
      simpa using this
    · exact ih (a + 1) fun k hk => by
        have h1 := h (k + 1) (Nat.succ_lt_succ hk)
        have e : a + 1 + (k : Int) = a + ((k + 1 : Nat) : Int) := by push_cast; ring
        rw [e]; exact h1

theorem putBytes_outside (m : Mem) (a : Int) (bs : List Nat) (x : Int)
    (h : x < a ∨ a + bs.length ≤ x) :
    putBytes m a bs x = m x := by
  induction bs generalizing m a with
  | nil => rfl
  | cons b bs ih =>
    simp only [putBytes]
    have hx : x ≠ a := by
      rcases h with h | h
      · omega
      · simp at h; omega
    rw [ih]
    · simp [hx]
    · rcases h with h | h
      · left; omega
      · right; simp at h ⊢; omega

theorem getBytes_putBytes (m : Mem) (a : Int) (bs : List Nat) :
    getBytes (putBytes m a bs) a bs.length = bs := by
  induction bs generalizing m a with
  | nil => rfl
  | cons b bs ih =>
    simp only [putBytes, getBytes, List.length_cons]
    congr 1
    · rw [putBytes_outside]
      · simp
      · left; omega
    · exact ih _ _

theorem getBytes_lt (m : Mem) (a : Int) (n : Nat)
    (hm : ∀ x, m x < 256) : ∀ b ∈ getBytes m a n, b < 256 := by
  induction n generalizing a with
  | zero => simp [getBytes]
  | succ n ih =>
    simp only [getBytes, List.mem_cons]
    rintro b (rfl | hb)
    · exact hm a
    · exact ih (a + 1) b hb

theorem putBytes_lt (m : Mem) (a : Int) (bs : List Nat)
    (hm : ∀ x, m x < 256) (hbs : ∀ b ∈ bs, b < 256) :
    ∀ x, putBytes m a bs x < 256 := by
  induction bs generalizing m a with
  | nil => exact hm
  | cons b bs ih =>
    intro x
    simp only [putBytes]
    refine ih _ _ (fun y => ?_) (fun c hc => hbs c (List.mem_cons_of_mem _ hc)) x
    by_cases hy : y = a
    · simpa [hy] using hbs b (List.mem_cons_self _ _)
    · simpa [hy] using hm y

theorem getBytes_append_take (m : Mem) (a : Int) (n k : Nat) :
    (getBytes m a (n + k)).take n = getBytes m a n := by
  induction n generalizing a with
  | zero => simp [getBytes]
  | succ n ih =>
    have : n + 1 + k = (n + k) + 1 := by omega
    rw [this]
    simp only [getBytes, List.take_succ_cons]
    rw [ih]

/-! ## Encoding lemmas -/

theorem encodeLE_length : ∀ (n v : Nat), (encodeLE n v).length = n
  | 0, _ => rfl
  | n + 1, v => by simp [encodeLE, encodeLE_length n (v / 256)]

theorem encodeLE_lt (n v : Nat) : ∀ b ∈ encodeLE n v, b < 256 := by
  induction n generalizing v with
  | zero => simp [encodeLE]
  | succ n ih =>
    simp only [encodeLE, List.mem_cons]
    rintro b (rfl | hb)
    · exact Nat.mod_lt _ (by norm_num)
    · exact ih _ b hb

theorem encodeLE_decodeLE (bs : List Nat) (n : Nat)
    (hlen : bs.length = n) (hlt : ∀ b ∈ bs, b < 256) :
    encodeLE n (decodeLE bs) = bs := by
  induction bs generalizing n with
  | nil => subst hlen; rfl
  | cons b bs ih =>
    subst hlen
    have hb : b < 256 := hlt b (List.mem_cons_self _ _)
    simp only [List.length_cons, encodeLE, decodeLE]
    congr 1
    · omega
    · have : (b + 256 * decodeLE bs) / 256 = decodeLE bs := by omega
      rw [this]
      exact ih bs.length rfl (fun c hc => hlt c (List.mem_cons_of_mem _ hc))

theorem decodeLE_encodeLE (n v : Nat) :
    decodeLE (encodeLE n v) = v % 256 ^ n := by
  induction n generalizing v with
  | zero => simp [encodeLE, decodeLE, Nat.mod_one]
  | succ n ih =>
    simp only [encodeLE, decodeLE, ih]
    rw [pow_succ, mul_comm (256 ^ n) 256, Nat.mod_mul]

/-! ## Bit-level lemmas on the packed `ack_reason` byte -/

theorem pack_unpack_fin :
    ∀ b : Fin 256,
      packAckReason (((b : Nat) &&& 127 : Nat) : Int) ((b : Nat) >>> 7 != 0) = (b : Nat) := by
  decide

theorem pack_unpack (b : Nat) (hb : b < 256) :
    packAckReason ((b &&& 127 : Nat) : Int) (b >>> 7 != 0) = b :=
  pack_unpack_fin ⟨b, hb⟩

theorem lor128_lt_fin : ∀ b : Fin 256, ((b : Nat) ||| 128) < 256 := by decide

theorem packAckReason_lt (reason : Int) (ack : Bool) :
    packAckReason reason ack < 256 := by
  have h0 : (0 : Int) ≤ reason.emod 256 := Int.emod_nonneg _ (by norm_num)
  have h1 : reason.emod 256 < 256 := Int.emod_lt_of_pos _ (by norm_num)
  have h2 : (reason.emod 256).toNat < 256 := by omega
  unfold packAckReason
  cases ack with
  | false => simpa using h2
  | true => simpa using lor128_lt_fin ⟨(reason.emod 256).toNat, h2⟩

theorem ack_rebits_fin :
    ∀ b : Fin 256,
      packAckReason (((b : Nat) &&& 127 : Nat) : Int) true &&& 127 = (b : Nat) &&& 127 ∧
      (packAckReason (((b : Nat) &&& 127 : Nat) : Int) true >>> 7 != 0) = true := by
  decide

/-! ## Serialization lemmas -/

theorem map_mod_eq_self (l : List Nat) (h : ∀ b ∈ l, b < 256) :
    l.map (· % 256) = l := by
  induction l with
  | nil => rfl
  | cons b bs ih =>
    simp only [List.map_cons]
    rw [Nat.mod_eq_of_lt (h b (List.mem_cons_self _ _)),
      ih (fun y hy => h y (List.mem_cons_of_mem _ hy))]

theorem decodeLE_lt (bs : List Nat) (h : ∀ b ∈ bs, b < 256) :
    decodeLE bs < 256 ^ bs.length := by
  induction bs with
  | nil => simp [decodeLE]
  | cons b bs ih =>
    have hb : b < 256 := h b (List.mem_cons_self _ _)
    have := ih (fun c hc => h c (List.mem_cons_of_mem _ hc))
    simp only [decodeLE, List.length_cons, pow_succ]
    calc b + 256 * decodeLE bs < 256 + 256 * decodeLE bs := by omega
    _ ≤ 256 * 256 ^ bs.length := by omega
    _ = 256 ^ bs.length * 256 := by ring

theorem nwEventSer_length (e : nwEvent) (hv : e.version.length = 32) :
    (nwEventSer e).length = 37 := by
  simp [nwEventSer, encodeLE_length, hv]

theorem nwEventSer_lt (e : nwEvent) : ∀ b ∈ nwEventSer e, b < 256 := by
  intro b hb
  simp only [nwEventSer, List.mem_append, List.mem_map, List.mem_singleton] at hb
  rcases hb with (⟨c, _, rfl⟩ | hb) | rfl
  · exact Nat.mod_lt _ (by norm_num)
  · exact encodeLE_lt 4 e.time b hb
  · exact packAckReason_lt _ _

theorem getBytes_split (m : Mem) (a : Int) (n k : Nat) :
    getBytes m a (n + k) = getBytes m a n ++ getBytes m (a + n) k := by
  induction n generalizing a with
  | zero => simp [getBytes]
  | succ n ih =>
    have h1 : n + 1 + k = (n + k) + 1 := by omega
    rw [h1]
    simp only [getBytes, List.cons_append]
    rw [ih]
    congr 2
    push_cast
    ring

/-- Deserialize-then-serialize is the identity on any 37 physical bytes. -/
theorem ser_deser (v t : List Nat) (r : Nat)
    (hv : v.length = 32) (ht : t.length = 4)
    (hvlt : ∀ b ∈ v, b < 256) (htlt : ∀ b ∈ t, b < 256) (hr : r < 256) :
    nwEventSer (nwEventDeser (v ++ t ++ [r])) = v ++ t ++ [r] := by
  have htake : (v ++ t ++ [r]).take 32 = v := by
    rw [List.append_assoc, ← hv, List.take_left]
  have hdrop : (v ++ t ++ [r]).drop 32 = t ++ [r] := by
    rw [List.append_assoc, ← hv, List.drop_left]
  have hdt : (t ++ [r]).take 4 = t := by rw [← ht, List.take_left]
  have hgetD : (v ++ t ++ [r]).getD 36 0 = r := by
    rw [List.getD_eq_getElem?_getD, List.getElem?_append_right (by simp [hv, ht]),
      List.getElem?_eq_getElem (by simp [hv, ht])]
    simp [hv, ht]
  simp only [nwEventDeser, nwEventSer, htake, hdrop, hdt, hgetD]
  rw [map_mod_eq_self v hvlt, encodeLE_decodeLE t 4 ht htlt, pack_unpack r hr]

/-- Reading 37 bytes and re-serializing the resulting event yields back
exactly the bytes read. -/
theorem ser_deser_getBytes (m : Mem) (a : Int) (hm : ∀ x, m x < 256) :
    nwEventSer (nwEventDeser (getBytes m a 37)) = getBytes m a 37 := by
  have h1 : getBytes m a 37 = getBytes m a 32 ++ getBytes m (a + 32) 4 ++ [m (a + 36)] := by
    have e1 : (37 : Nat) = 32 + 5 := by norm_num
    have e2 : (5 : Nat) = 4 + 1 := by norm_num
    rw [e1, getBytes_split, e2, getBytes_split]
    simp only [getBytes]
    rw [← List.append_assoc]
    norm_num
    congr 1
    omega
  rw [h1]
  exact ser_deser _ _ _ (getBytes_length m a 32) (getBytes_length m (a + 32) 4)
    (getBytes_lt m a 32 hm) (getBytes_lt m (a + 32) 4 hm) (hm (a + 36))

/-! ## Address arithmetic -/

theorem nwResetCountAdr_eq : nwResetCountAdr = 37 := by
  simp [nwResetCountAdr, nwInitEventAdr, nwEventStrSize, nwVersionSize]

theorem nwResetEventAdr_eq : nwResetEventAdr = 39 := by
  simp [nwResetEventAdr, nwResetCountAdr, nwInitEventAdr, nwEventStrSize, nwVersionSize, nwIntSize]

theorem wrap16_eq (x : Int) (h0 : -32768 ≤ x) (h1 : x < 32768) : wrap16 x = x := by
  unfold wrap16
  have h2 : (x + 32768).emod 65536 = x + 32768 :=
    Int.emod_eq_of_lt (by omega) (by omega)
  rw [h2]
  omega

theorem slotAdr_eq (i : Int) (h0 : 0 ≤ i) (h1 : i ≤ 10) :
    slotAdr i = 39 + 37 * i := by
  have h2 : nwResetEventAdr + i * (nwEventStrSize : Int) = 39 + 37 * i := by
    rw [nwResetEventAdr_eq]
    simp [nwEventStrSize, nwVersionSize]
    ring
  rw [slotAdr, h2, wrap16_eq _ (by omega) (by omega)]

/-! ## Projection lemmas for the EEPROM operations -/

theorem resetEventSet_mem (ev : nwEvent) (i : Int) (s : Nvm) :
    (nwEEPROMResetEventSet ev i s).mem = putBytes s.mem (slotAdr i) (nwEventSer ev) := rfl

theorem resetEventGet_fst (s : Nvm) (i : Int) :
    (nwEEPROMResetEventGet s i).1 = nwEventDeser (getBytes s.mem (slotAdr i) 37) := rfl

theorem resetEventGet_snd_mem (s : Nvm) (i : Int) :
    (nwEEPROMResetEventGet s i).2.mem = s.mem := rfl

theorem countGet_fst (s : Nvm) :
    (nwEEPROMResetEventCountGet s).1 = decodeInt16 (s.mem 37) (s.mem 38) := by
  simp only [nwEEPROMResetEventCountGet, readBytesN, nwResetCountAdr_eq, getBytes]
  norm_num [List.getD]

theorem countGet_snd_mem (s : Nvm) :
    (nwEEPROMResetEventCountGet s).2.mem = s.mem := rfl

/-- One iteration of the shift loop copies the 37 bytes of slot `i-1`
onto slot `i` and changes nothing else of the memory. -/
theorem copy_mem (s : Nvm) (i : Int) (hm : ∀ x, s.mem x < 256) :
    (nwEEPROMResetEventSet (nwEEPROMResetEventGet s (i - 1)).1 i
      (nwEEPROMResetEventGet s (i - 1)).2).mem =
    putBytes s.mem (slotAdr i) (getBytes s.mem (slotAdr (i - 1)) 37) := by
  rw [resetEventSet_mem, resetEventGet_fst, resetEventGet_snd_mem,
    ser_deser_getBytes _ _ hm]

/-! ## The shift loop -/

theorem shiftLoop_spec : ∀ (k : Nat) (c : Int) (s : Nvm),
    (∀ x, s.mem x < 256) → 0 ≤ c → c ≤ 10 → c.toNat = k →
    (∀ x : Int, x < 76 → (shiftLoop s c k).mem x = s.mem x) ∧
    (∀ x : Int, 39 + 37 * (c + 1) ≤ x → (shiftLoop s c k).mem x = s.mem x) ∧
    (∀ i : Int, 1 ≤ i → i ≤ c →
      getBytes (shiftLoop s c k).mem (39 + 37 * i) 37 =
        getBytes s.mem (39 + 37 * (i - 1)) 37) ∧
    (∀ x, (shiftLoop s c k).mem x < 256) := by
  intro k
  induction k with
  | zero =>
    intro c s hm h0 h10 hk
    have hc : c = 0 := by omega
    subst hc
    exact ⟨fun x _ => rfl, fun x _ => rfl,
      fun i hi1 hi2 => absurd (le_trans hi1 hi2) (by norm_num), hm⟩
  | succ k ih =>
    intro c s hm h0 h10 hk
    have hc1 : 1 ≤ c := by omega
    have hstep : shiftLoop s c (k + 1) =
        shiftLoop (nwEEPROMResetEventSet (nwEEPROMResetEventGet s (c - 1)).1 c
          (nwEEPROMResetEventGet s (c - 1)).2) (c - 1) k := rfl
    set s1 := nwEEPROMResetEventSet (nwEEPROMResetEventGet s (c - 1)).1 c
      (nwEEPROMResetEventGet s (c - 1)).2 with hs1
    have hcopy : s1.mem = putBytes s.mem (39 + 37 * c) (getBytes s.mem (39 + 37 * (c - 1)) 37) := by
      rw [hs1, copy_mem s c hm, slotAdr_eq c (by omega) (by omega),
        slotAdr_eq (c - 1) (by omega) (by omega)]
    have hlen : (getBytes s.mem (39 + 37 * (c - 1)) 37).length = 37 := getBytes_length _ _ _
    have hm1 : ∀ x, s1.mem x < 256 := by
      rw [hcopy]
      exact putBytes_lt _ _ _ hm (getBytes_lt _ _ _ hm)
    have hout : ∀ x : Int, (x < 39 + 37 * c ∨ 39 + 37 * c + 37 ≤ x) → s1.mem x = s.mem x := by
      intro x hx
      rw [hcopy]
      apply putBytes_outside
      rw [hlen]
      push_cast
      omega
    obtain ⟨IH1, IH2, IH3, IH4⟩ := ih (c - 1) s1 hm1 (by omega) (by omega) (by omega)
    rw [hstep]
    refine ⟨?_, ?_, ?_, IH4⟩
    · intro x hx
      rw [IH1 x hx, hout x (Or.inl (by omega))]
    · intro x hx
      rw [IH2 x (by omega), hout x (Or.inr (by omega))]
    · intro i hi1 hi2
      rcases eq_or_lt_of_le hi2 with heq | hlt
      · subst heq
        have e1 : getBytes (shiftLoop s1 (i - 1) k).mem (39 + 37 * i) 37 =
            getBytes s1.mem (39 + 37 * i) 37 := by
          apply getBytes_congr
          intro j hj
          exact IH2 _ (by push_cast; omega)
        rw [e1, hcopy]
        have e2 := getBytes_putBytes s.mem (39 + 37 * i)
          (getBytes s.mem (39 + 37 * (i - 1)) 37)
        rw [getBytes_length] at e2
        exact e2
      · have e1 := IH3 i hi1 (by omega)
        rw [e1]
        apply getBytes_congr
        intro j hj
        exact hout _ (Or.inl (by push_cast; omega))

/-- Main specification of `nwEEPROMResetEventSetNew`, parameterized by the
clamped count `c'` (the loop bound actually used by the code). -/
theorem setNew_spec (s : Nvm) (ev : nwEvent) (idx c' : Int)
    (hm : ∀ x, s.mem x < 256) (hv : ev.version.length = 32)
    (h0 : 0 ≤ c') (h9 : c' ≤ 9)
    (hc' : (if (nwEEPROMResetEventCountGet s).1 == NW_MAX_RESET_EVENT
            then (nwEEPROMResetEventCountGet s).1 - 1
            else (nwEEPROMResetEventCountGet s).1) = c') :
    decodeInt16 ((nwEEPROMResetEventSetNew ev idx s).mem 37)
        ((nwEEPROMResetEventSetNew ev idx s).mem 38) = c' + 1 ∧
    getBytes (nwEEPROMResetEventSetNew ev idx s).mem 39 37 = nwEventSer ev ∧
    (∀ i : Int, 1 ≤ i → i ≤ c' →
      getBytes (nwEEPROMResetEventSetNew ev idx s).mem (39 + 37 * i) 37 =
        getBytes s.mem (39 + 37 * (i - 1)) 37) ∧
    (∀ x : Int, x < 37 → (nwEEPROMResetEventSetNew ev idx s).mem x = s.mem x) ∧
    (∀ x : Int, 39 + 37 * (c' + 1) ≤ x → (nwEEPROMResetEventSetNew ev idx s).mem x = s.mem x) := by
  have hsn : nwEEPROMResetEventSetNew ev idx s =
      nwResetCountPut (c' + 1) (nwEEPROMResetEventSet ev 0
        (shiftLoop (nwEEPROMResetEventCountGet s).2 c' c'.toNat)) := by
    simp only [nwEEPROMResetEventSetNew]
    rw [hc']
  obtain ⟨S1, S2, S3, S4⟩ := shiftLoop_spec c'.toNat c' (nwEEPROMResetEventCountGet s).2
    hm h0 (by omega) rfl
  set m2 := (shiftLoop (nwEEPROMResetEventCountGet s).2 c' c'.toNat).mem with hm2
  have hSA0 : slotAdr 0 = 39 := by rw [slotAdr_eq 0 (by norm_num) (by norm_num)]; ring
  have hserlen : (nwEventSer ev).length = 37 := nwEventSer_length ev hv
  have hs3 : (nwEEPROMResetEventSet ev 0
      (shiftLoop (nwEEPROMResetEventCountGet s).2 c' c'.toNat)).mem =
      putBytes m2 39 (nwEventSer ev) := by
    rw [resetEventSet_mem, hSA0]
  have hval : ((c' + 1).emod 65536).toNat = (c' + 1).toNat := by
    have h2 : (c' + 1).emod 65536 = c' + 1 :=
      Int.emod_eq_of_lt (by omega) (by omega)
    rw [h2]
  have hcntlen : (encodeLE 2 ((c' + 1).emod 65536).toNat).length = 2 := encodeLE_length _ _
  have hsmem : (nwEEPROMResetEventSetNew ev idx s).mem =
      putBytes (putBytes m2 39 (nwEventSer ev)) 37
        (encodeLE 2 ((c' + 1).emod 65536).toNat) := by
    rw [hsn, nwResetCountPut, writeBytesN, nwResetCountAdr_eq, hs3]
  -- the two count bytes
  have hcnt : getBytes (nwEEPROMResetEventSetNew ev idx s).mem 37 2 =
      encodeLE 2 ((c' + 1).emod 65536).toNat := by
    rw [hsmem]
    have := getBytes_putBytes (putBytes m2 39 (nwEventSer ev)) 37
      (encodeLE 2 ((c' + 1).emod 65536).toNat)
    rw [hcntlen] at this
    exact this
  constructor
  · have h1 : (nwEEPROMResetEventSetNew ev idx s).mem 37 = (c' + 1).toNat % 256 ∧
        (nwEEPROMResetEventSetNew ev idx s).mem 38 = (c' + 1).toNat / 256 % 256 := by
      have h2 := hcnt
      rw [hval] at h2
      simp only [getBytes, encodeLE] at h2
      have h37 : (37 : Int) + 1 = 38 := by norm_num
      rw [h37] at h2
      exact ⟨(List.cons.injEq _ _ _ _ ▸ h2).1, by
        have := (List.cons.injEq _ _ _ _ ▸ h2).2
        exact (List.cons.injEq _ _ _ _ ▸ this).1⟩
    rw [h1.1, h1.2]
    unfold decodeInt16
    have hle : (c' + 1).toNat ≤ 10 := by omega
    have e1 : (c' + 1).toNat % 256 = (c' + 1).toNat := by omega
    have e2 : (c' + 1).toNat / 256 % 256 = 0 := by omega
    rw [e1, e2]
    simp only []
    rw [if_pos (by omega)]
    omega
  constructor
  · -- slot 0 holds the serialization of ev
    have e1 : getBytes (nwEEPROMResetEventSetNew ev idx s).mem 39 37 =
        getBytes (putBytes m2 39 (nwEventSer ev)) 39 37 := by
      rw [hsmem]
      apply getBytes_congr
      intro j hj
      apply putBytes_outside
      rw [hcntlen]
      right
      push_cast
      omega
    rw [e1]
    have e2 := getBytes_putBytes m2 39 (nwEventSer ev)
    rw [hserlen] at e2
    exact e2
  constructor
  · -- shifted slots
    intro i hi1 hi2
    have e1 : getBytes (nwEEPROMResetEventSetNew ev idx s).mem (39 + 37 * i) 37 =
        getBytes m2 (39 + 37 * i) 37 := by
      rw [hsmem]
      apply getBytes_congr
      intro j hj
      rw [putBytes_outside _ _ _ _ (by rw [hcntlen]; right; push_cast; omega)]
      apply putBytes_outside
      rw [hserlen]
      right
      push_cast
      omega
    rw [e1]
    exact S3 i hi1 hi2
  constructor
  · -- bytes below the count are untouched
    intro x hx
    rw [hsmem,
      putBytes_outside _ _ _ _ (by rw [hcntlen]; left; omega),
      putBytes_outside _ _ _ _ (by rw [hserlen]; left; omega)]
    exact S1 x (by omega)
  · -- bytes above the written region are untouched
    intro x hx
    rw [hsmem,
      putBytes_outside _ _ _ _ (by rw [hcntlen]; right; omega),
      putBytes_outside _ _ _ _ (by rw [hserlen]; right; omega)]
    exact S2 x (by omega)

/-! ## Claim C1 -/

/-- C1: for every log state whose stored reset-event count `c` is in 0..10
and every event `ev`, after `nwEEPROMResetEventSetNew( ev )` the stored
count equals `min (c+1) 10`, slot 0 holds the serialization of `ev`, and
every slot `i` in `[1, min (c+1) 10)` holds the 37 bytes slot `i-1` held
before the call (when `c = 10` the old slot 9 is dropped). -/
theorem C1_insert_shift (s : Nvm) (ev : nwEvent) (idx c : Int)
    (hm : ∀ x, s.mem x < 256)
    (hc : decodeInt16 (s.mem 37) (s.mem 38) = c)
    (hc0 : 0 ≤ c) (hc10 : c ≤ 10)
    (hv : ev.version.length = 32) :
    decodeInt16 ((nwEEPROMResetEventSetNew ev idx s).mem 37)
        ((nwEEPROMResetEventSetNew ev idx s).mem 38) = min (c + 1) 10 ∧
    getBytes (nwEEPROMResetEventSetNew ev idx s).mem 39 37 = nwEventSer ev ∧
    (∀ i : Int, 1 ≤ i → i < min (c + 1) 10 →
      getBytes (nwEEPROMResetEventSetNew ev idx s).mem (39 + 37 * i) 37 =
        getBytes s.mem (39 + 37 * (i - 1)) 37) := by
  have hcg : (nwEEPROMResetEventCountGet s).1 = c := by rw [countGet_fst, hc]
  by_cases h10 : c = 10
  · subst h10
    have hmin : min ((10 : Int) + 1) 10 = 10 := by norm_num
    obtain ⟨A, B, C, _, _⟩ := setNew_spec s ev idx 9 hm hv (by norm_num) (by norm_num)
      (by rw [hcg]; norm_num [NW_MAX_RESET_EVENT])
    refine ⟨by rw [hmin]; rw [A]; norm_num, B, ?_⟩
    intro i hi1 hi2
    rw [hmin] at hi2
    exact C i hi1 (by omega)
  · have hmin : min (c + 1) 10 = c + 1 := min_eq_left (by omega)
    obtain ⟨A, B, C, _, _⟩ := setNew_spec s ev idx c hm hv hc0 (by omega)
      (by rw [hcg]; simp [NW_MAX_RESET_EVENT, h10])
    refine ⟨by rw [hmin]; exact A, B, ?_⟩
    intro i hi1 hi2
    rw [hmin] at hi2
    exact C i hi1 (by omega)

/-- Witness for C1: inserting `sampleEvent` into the all-zero EEPROM
(count 0) stores count 1 and writes the event at slot 0. -/
theorem C1_insert_shift_witness :
    decodeInt16 ((nwEEPROMResetEventSetNew sampleEvent 0 zeroNvm).mem 37)
        ((nwEEPROMResetEventSetNew sampleEvent 0 zeroNvm).mem 38) = min (0 + 1) 10 ∧
    getBytes (nwEEPROMResetEventSetNew sampleEvent 0 zeroNvm).mem 39 37 =
      nwEventSer sampleEvent ∧
    (∀ i : Int, 1 ≤ i → i < min (0 + 1) 10 →
      getBytes (nwEEPROMResetEventSetNew sampleEvent 0 zeroNvm).mem (39 + 37 * i) 37 =
        getBytes zeroNvm.mem (39 + 37 * (i - 1)) 37) :=
  C1_insert_shift zeroNvm sampleEvent 0 0 (fun x => by simp [zeroNvm, Mem])
    (by decide) (by decide) (by decide) (by decide)

/-! ## Claim C9 -/

/-- C9: the `index` parameter of `nwEEPROMResetEventSetNew` has no effect:
for every event, every starting EEPROM state and any two index arguments,
the two calls produce identical states (memory and access trace alike);
insertion always occurs at slot 0. -/
theorem C9_index_ignored (ev : nwEvent) (i j : Int) (s : Nvm) :
    nwEEPROMResetEventSetNew ev i s = nwEEPROMResetEventSetNew ev j s := rfl

/-! ## Claim C8 -/

/-- C8: the serialized event structure is exactly 37 bytes, the stored
count lives at offset 37 with size 2, ring slot `i` starts at offset
`39 + 37*i` for `i ∈ [0,10)`, and the whole log occupies `[0, 409)`. -/
theorem C8_layout :
    nwEventStrSize = 37 ∧ nwResetCountAdr = 37 ∧ nwIntSize = 2 ∧
    (∀ i : Int, 0 ≤ i → i < 10 → slotAdr i = 39 + 37 * i) ∧
    nwResetEventAdr + 10 * (nwEventStrSize : Int) = 409 ∧
    (∀ e : nwEvent, e.version.length = 32 → (nwEventSer e).length = 37) :=
  ⟨rfl, nwResetCountAdr_eq, rfl,
    fun i h0 h1 => slotAdr_eq i h0 (by omega),
    by rw [nwResetEventAdr_eq]; norm_num [nwEventStrSize, nwVersionSize],
    fun e hv => nwEventSer_length e hv⟩

/-- Witness for C8 at slot 3 and at `sampleEvent`. -/
theorem C8_layout_witness :
    slotAdr 3 = 39 + 37 * 3 ∧ (nwEventSer sampleEvent).length = 37 :=
  ⟨C8_layout.2.2.2.1 3 (by norm_num) (by norm_num),
    C8_layout.2.2.2.2.2 sampleEvent (by decide)⟩

/-! ## Claim C7 -/

/-- C7: `nwReasonString` returns `"initialization"` exactly for code 0,
`"no ping"` exactly for code 1, `"external command"` exactly for codes
≥ 16, and `"unknown reason code"` in all other cases (including 2..15
and negative codes). -/
theorem C7_reason_labels (code : Int) :
    (nwReasonString code = "initialization" ↔ code = 0) ∧
    (nwReasonString code = "no ping" ↔ code = 1) ∧
    (nwReasonString code = "external command" ↔ 16 ≤ code) ∧
    (nwReasonString code = "unknown reason code" ↔
      (code ≠ 0 ∧ code ≠ 1 ∧ code < 16)) := by
  have d1 : ("initialization" : String) ≠ "no ping" := by decide
  have d2 : ("initialization" : String) ≠ "external command" := by decide
  have d3 : ("initialization" : String) ≠ "unknown reason code" := by decide
  have d4 : ("no ping" : String) ≠ "external command" := by decide
  have d5 : ("no ping" : String) ≠ "unknown reason code" := by decide
  have d6 : ("external command" : String) ≠ "unknown reason code" := by decide
  unfold nwReasonString NW_REASON_INIT NW_REASON_NOPING NW_REASON_COMMAND_START
  split_ifs with h1 h2 h3 <;>
    refine ⟨?_, ?_, ?_, ?_⟩ <;> constructor <;> intro h <;>
    first
      | rfl
      | omega
      | (exfalso
         first
           | exact d1 h | exact d1 h.symm | exact d2 h | exact d2 h.symm
           | exact d3 h | exact d3 h.symm | exact d4 h | exact d4 h.symm
           | exact d5 h | exact d5 h.symm | exact d6 h | exact d6 h.symm
           | omega)

/-! ## Claim C10 -/

/-- C10: deserializing 37 stored bytes and immediately serializing the
resulting record back to the same address leaves all 37 stored bytes
unchanged (and touches no byte outside them). -/
theorem C10_read_write_roundtrip (s : Nvm) (adr : Int) (hm : ∀ x, s.mem x < 256) :
    getBytes ((nwEvent.readFromEEPROM s adr).1.writeToEEPROM adr
        (nwEvent.readFromEEPROM s adr).2).mem adr 37 = getBytes s.mem adr 37 ∧
    (∀ x : Int, (x < adr ∨ adr + 37 ≤ x) →
      ((nwEvent.readFromEEPROM s adr).1.writeToEEPROM adr
        (nwEvent.readFromEEPROM s adr).2).mem x = s.mem x) := by
  have hmem : ((nwEvent.readFromEEPROM s adr).1.writeToEEPROM adr
      (nwEvent.readFromEEPROM s adr).2).mem =
      putBytes s.mem adr (getBytes s.mem adr 37) := by
    show putBytes s.mem adr (nwEventSer (nwEventDeser (getBytes s.mem adr 37))) = _
    rw [ser_deser_getBytes s.mem adr hm]
  constructor
  · rw [hmem]
    have h := getBytes_putBytes s.mem adr (getBytes s.mem adr 37)
    rw [getBytes_length] at h
    exact h
  · intro x hx
    rw [hmem]
    apply putBytes_outside
    rw [getBytes_length]
    push_cast
    omega

/-- Witness for C10 on the all-zero EEPROM at address 0. -/
theorem C10_read_write_roundtrip_witness :
    getBytes ((nwEvent.readFromEEPROM zeroNvm 0).1.writeToEEPROM 0
        (nwEvent.readFromEEPROM zeroNvm 0).2).mem 0 37 = getBytes zeroNvm.mem 0 37 ∧
    (∀ x : Int, (x < 0 ∨ 0 + 37 ≤ x) →
      ((nwEvent.readFromEEPROM zeroNvm 0).1.writeToEEPROM 0
        (nwEvent.readFromEEPROM zeroNvm 0).2).mem x = zeroNvm.mem x) :=
  C10_read_write_roundtrip zeroNvm 0 (fun x => by simp [zeroNvm, Mem])

/-! ## Field-level lemmas about serialize-then-deserialize -/

theorem bits_lor0_fin :
    ∀ x : Fin 128, (((x : Nat) ||| 0) &&& 127 = (x : Nat)) ∧
      (((x : Nat) ||| 0) >>> 7 = 0) := by
  decide

theorem bits_or128_fin :
    ∀ x : Fin 128, (((x : Nat) ||| 128) &&& 127 = (x : Nat)) ∧
      (((x : Nat) ||| 128) >>> 7 = 1) := by
  decide

theorem bits_lor0 (x : Nat) (h : x < 128) :
    ((x ||| 0) &&& 127 = x) ∧ ((x ||| 0) >>> 7 = 0) :=
  bits_lor0_fin ⟨x, h⟩

theorem bits_or128 (x : Nat) (h : x < 128) :
    ((x ||| 128) &&& 127 = x) ∧ ((x ||| 128) >>> 7 = 1) :=
  bits_or128_fin ⟨x, h⟩

theorem emod256_eq_emod128 (r : Int) (h : r.emod 256 < 128) :
    r.emod 256 = r.emod 128 := by
  have h1 : (r.emod 256).emod 128 = r.emod 128 :=
    Int.emod_emod_of_dvd r (by norm_num)
  have h2 : (r.emod 256).emod 128 = r.emod 256 :=
    Int.emod_eq_of_lt (Int.emod_nonneg _ (by norm_num)) h
  omega

/-- The fields recovered by deserializing the serialization of a record. -/
theorem deser_ser_fields (e : nwEvent)
    (hv : e.version.length = 32) (hvlt : ∀ b ∈ e.version, b < 256) :
    (nwEventDeser (nwEventSer e)).version = e.version ∧
    (nwEventDeser (nwEventSer e)).time = e.time % 2 ^ 32 ∧
    (nwEventDeser (nwEventSer e)).reason =
      ((packAckReason e.reason e.ack &&& 127 : Nat) : Int) ∧
    (nwEventDeser (nwEventSer e)).ack = (packAckReason e.reason e.ack >>> 7 != 0) := by
  have hvm : (e.version.map (· % 256)).length = 32 := by simp [hv]
  have htl : (encodeLE 4 e.time).length = 4 := encodeLE_length _ _
  have htake : (nwEventSer e).take 32 = e.version.map (· % 256) := by
    rw [nwEventSer, List.append_assoc, ← hvm, List.take_left]
  have hdrop : (nwEventSer e).drop 32 =
      encodeLE 4 e.time ++ [packAckReason e.reason e.ack] := by
    rw [nwEventSer, List.append_assoc, ← hvm, List.drop_left]
  have htake4 : ∀ (t : List Nat) (r : Nat), t.length = 4 → (t ++ [r]).take 4 = t := by
    intro t r h
    rw [← h, List.take_left]
  have hdt : (encodeLE 4 e.time ++ [packAckReason e.reason e.ack]).take 4 =
      encodeLE 4 e.time := htake4 _ _ htl
  have hgetD : (nwEventSer e).getD 36 0 = packAckReason e.reason e.ack := by
    rw [nwEventSer, List.getD_eq_getElem?_getD,
      List.getElem?_append_right (by simp [hv, htl]),
      List.getElem?_eq_getElem (by simp [hv, htl])]
    simp [hv, htl]
  refine ⟨?_, ?_, ?_, ?_⟩
  · rw [nwEventDeser, htake, map_mod_eq_self _ hvlt]
  · show decodeLE (((nwEventSer e).drop 32).take 4) = _
    rw [hdrop, hdt, decodeLE_encodeLE]
    norm_num
  · show (((nwEventSer e).getD 36 0 &&& 127 : Nat) : Int) = _
    rw [hgetD]
  · show ((nwEventSer e).getD 36 0 >>> 7 != 0) = _
    rw [hgetD]

/-! ## Claim C2 -/

/-- Counterexample to C2 as stated: a record with in-memory reason 128
(bit 7 of the low byte set) and `acked = false` does not round-trip —
the acknowledged flag reads back `true`. -/
theorem C2_ack_cex :
    ¬ ((nwEvent.readFromEEPROM (nwEvent.writeToEEPROM reason128Event 0 zeroNvm) 0).1.ack
        = reason128Event.ack) := by
  decide

/-- C2 (amended): for every event record whose reason's low byte has
bit 7 clear (`reason mod 256 < 128` — in particular every reason in
0..127), serializing with `writeToEEPROM` and deserializing the same
address with `readFromEEPROM` is the identity on
`(version, timestamp, reason & 0x7F, acked)`. -/
theorem C2_serialize_roundtrip (e : nwEvent) (adr : Int) (s : Nvm)
    (hv : e.version.length = 32) (hvlt : ∀ b ∈ e.version, b < 256)
    (ht : e.time < 2 ^ 32) (hr : e.reason.emod 256 < 128) :
    (nwEvent.readFromEEPROM (e.writeToEEPROM adr s) adr).1.version = e.version ∧
    (nwEvent.readFromEEPROM (e.writeToEEPROM adr s) adr).1.time = e.time ∧
    (nwEvent.readFromEEPROM (e.writeToEEPROM adr s) adr).1.reason = e.reason.emod 128 ∧
    (nwEvent.readFromEEPROM (e.writeToEEPROM adr s) adr).1.ack = e.ack := by
  have hread : (nwEvent.readFromEEPROM (e.writeToEEPROM adr s) adr).1 =
      nwEventDeser (nwEventSer e) := by
    show nwEventDeser (getBytes (putBytes s.mem adr (nwEventSer e)) adr 37) = _
    have h := getBytes_putBytes s.mem adr (nwEventSer e)
    rw [nwEventSer_length e hv] at h
    rw [h]
  obtain ⟨F1, F2, F3, F4⟩ := deser_ser_fields e hv hvlt
  have hx : (e.reason.emod 256).toNat < 128 := by
    have := Int.emod_nonneg e.reason (show (256 : Int) ≠ 0 by norm_num)
    omega
  have hemod : e.reason.emod 256 = e.reason.emod 128 := emod256_eq_emod128 _ hr
  have hnn : 0 ≤ e.reason.emod 256 := Int.emod_nonneg _ (by norm_num)
  refine ⟨by rw [hread, F1], by rw [hread, F2, Nat.mod_eq_of_lt ht], ?_, ?_⟩
  · rw [hread, F3]
    unfold packAckReason
    cases e.ack with
    | false =>
      rw [if_neg Bool.false_ne_true, (bits_lor0 _ hx).1]
      omega
    | true =>
      rw [if_pos rfl, (bits_or128 _ hx).1]
      omega
  · rw [hread, F4]
    unfold packAckReason
    cases e.ack with
    | false =>
      rw [if_neg Bool.false_ne_true, (bits_lor0 _ hx).2]
      rfl
    | true =>
      rw [if_pos rfl, (bits_or128 _ hx).2]
      rfl

/-- Witness for the amended C2 at `sampleEvent`. -/
theorem C2_serialize_roundtrip_witness :
    (nwEvent.readFromEEPROM (nwEvent.writeToEEPROM sampleEvent 0 zeroNvm) 0).1.version
        = sampleEvent.version ∧
    (nwEvent.readFromEEPROM (nwEvent.writeToEEPROM sampleEvent 0 zeroNvm) 0).1.time
        = sampleEvent.time ∧
    (nwEvent.readFromEEPROM (nwEvent.writeToEEPROM sampleEvent 0 zeroNvm) 0).1.reason
        = sampleEvent.reason.emod 128 ∧
    (nwEvent.readFromEEPROM (nwEvent.writeToEEPROM sampleEvent 0 zeroNvm) 0).1.ack
        = sampleEvent.ack :=
  C2_serialize_roundtrip sampleEvent 0 zeroNvm (by decide) (by decide)
    (by norm_num [sampleEvent]) (by decide)

/-! ## Claim C4 -/

/-- Counterexample to C4 as stated: with in-memory reason 128 and
`acked = false`, the final serialized byte is 128, not
`(acked << 7) | (reason & 0x7F) = 0`. -/
theorem C4_packed_byte_cex :
    ¬ ((nwEventSer reason128Event).getD 36 0 =
        specPackedByte reason128Event.reason reason128Event.ack) := by
  decide

/-- C4 (amended): for every record whose reason's low byte has bit 7
clear (in particular every reason in 0..127), the final (37th) byte of
the serialized layout is exactly `(acked << 7) | (reason & 0x7F)`. -/
theorem C4_packed_byte (e : nwEvent)
    (hv : e.version.length = 32) (hr : e.reason.emod 256 < 128) :
    (nwEventSer e).getD 36 0 = specPackedByte e.reason e.ack := by
  have htl : (encodeLE 4 e.time).length = 4 := encodeLE_length _ _
  have hgetD : (nwEventSer e).getD 36 0 = packAckReason e.reason e.ack := by
    rw [nwEventSer, List.getD_eq_getElem?_getD,
      List.getElem?_append_right (by simp [hv, htl]),
      List.getElem?_eq_getElem (by simp [hv, htl])]
    simp [hv, htl]
  rw [hgetD]
  have hemod : e.reason.emod 256 = e.reason.emod 128 := emod256_eq_emod128 _ hr
  unfold packAckReason specPackedByte
  rw [hemod]
  cases e.ack
  · simp [Nat.lor_comm]
  · simp [Nat.lor_comm]

/-- Witness for the amended C4 at `sampleEvent`. -/
theorem C4_packed_byte_witness :
    (nwEventSer sampleEvent).getD 36 0 =
      specPackedByte sampleEvent.reason sampleEvent.ack :=
  C4_packed_byte sampleEvent (by decide) (by decide)

/-! ## Claim C5 -/

/-- Counterexample to C5 as stated: deserializing 37 bytes that are all
`0x41` yields a record whose 32-byte version field contains no null. -/
theorem C5_null_terminated_cex :
    ¬ versionNullTerminated (nwEvent.readFromEEPROM allANvm 0).1.version := by
  decide

/-- C5 (amended): records produced by default construction and by
construction with a reason have a null-terminated version field, but
`readFromEEPROM` copies the stored 32 version bytes verbatim, so its
record's version is null-terminated only when the stored bytes contain
a null. -/
theorem C5_null_terminated (nowT : Nat) (r : Int) (s : Nvm) (adr : Int) :
    versionNullTerminated (nwEvent.mkDefault nowT).version ∧
    versionNullTerminated (nwEvent.mkWithReason nowT r).version ∧
    (nwEvent.readFromEEPROM s adr).1.version = getBytes s.mem adr 32 := by
  refine ⟨?_, ?_, ?_⟩
  · show versionNullTerminated
      (nwVersionString ++ List.replicate (nwVersionSize - nwVersionString.length) 0)
    decide
  · show versionNullTerminated
      (nwVersionString ++ List.replicate (nwVersionSize - nwVersionString.length) 0)
    decide
  · show (getBytes s.mem adr 37).take 32 = getBytes s.mem adr 32
    have h := getBytes_append_take s.mem adr 32 5
    norm_num at h
    exact h

/-! ## Claim C3 -/

/-- Counterexample to C3 as stated: starting from an EEPROM whose stored
count bytes are `0xFF 0xFF`, the insert operation stores count 0, not 1. -/
theorem C3_erased_count_cex :
    ¬ (decodeInt16 ((nwEEPROMResetEventSetNew sampleEvent 0 ffCountNvm).mem 37)
        ((nwEEPROMResetEventSetNew sampleEvent 0 ffCountNvm).mem 38) = 1) := by
  decide

theorem accList_bounds (x a : Int) (n : Nat) (h : x ∈ accList a n) :
    a ≤ x ∧ x < a + n := by
  unfold accList at h
  obtain ⟨k, hk, hx⟩ := List.mem_map.mp h
  rw [List.mem_range] at hk
  subst hx
  simp only [Int.ofNat_eq_coe]
  omega

/-- C3 (amended): the code does not clamp an out-of-range count to 0.
A stored count of `0xFFFF` is read back as the signed 16-bit value `-1`,
so the shift loop performs no iteration, the new event is written at
slot 0, the stored count becomes 0 (not 1), and every non-volatile
address accessed lies in `[37, 76) ⊆ [0, 409)`. -/
theorem C3_erased_count (s : Nvm) (ev : nwEvent)
    (hm : ∀ x, s.mem x < 256) (h37 : s.mem 37 = 255) (h38 : s.mem 38 = 255)
    (hv : ev.version.length = 32) :
    decodeInt16 ((nwEEPROMResetEventSetNew ev 0 s).mem 37)
        ((nwEEPROMResetEventSetNew ev 0 s).mem 38) = 0 ∧
    getBytes (nwEEPROMResetEventSetNew ev 0 s).mem 39 37 = nwEventSer ev ∧
    (∀ x : Int, x < 37 ∨ 76 ≤ x → (nwEEPROMResetEventSetNew ev 0 s).mem x = s.mem x) ∧
    (∀ a ∈ (nwEEPROMResetEventSetNew ev 0 s).acc, a ∈ s.acc ∨ (37 ≤ a ∧ a < 76)) := by
  have hcg : (nwEEPROMResetEventCountGet s).1 = -1 := by
    rw [countGet_fst, h37, h38]; decide
  have hc' : (if ((nwEEPROMResetEventCountGet s).1 == NW_MAX_RESET_EVENT)
      then (nwEEPROMResetEventCountGet s).1 - 1
      else (nwEEPROMResetEventCountGet s).1) = -1 := by
    rw [hcg]; decide
  have hsn : nwEEPROMResetEventSetNew ev 0 s =
      nwResetCountPut 0 (nwEEPROMResetEventSet ev 0 (nwEEPROMResetEventCountGet s).2) := by
    simp only [nwEEPROMResetEventSetNew]
    rw [hc']
    rfl
  have hSA0 : slotAdr 0 = 39 := by rw [slotAdr_eq 0 (by norm_num) (by norm_num)]; ring
  have hserlen : (nwEventSer ev).length = 37 := nwEventSer_length ev hv
  have hmem : (nwEEPROMResetEventSetNew ev 0 s).mem =
      putBytes (putBytes s.mem 39 (nwEventSer ev)) 37 (encodeLE 2 0) := by
    rw [hsn]
    show putBytes (nwEEPROMResetEventSet ev 0 (nwEEPROMResetEventCountGet s).2).mem
        nwResetCountAdr (encodeLE 2 ((0 : Int).emod 65536).toNat) = _
    rw [resetEventSet_mem, hSA0, countGet_snd_mem, nwResetCountAdr_eq]
    rfl
  have henclen : (encodeLE 2 0).length = 2 := encodeLE_length _ _
  refine ⟨?_, ?_, ?_, ?_⟩
  · have hcnt : getBytes (nwEEPROMResetEventSetNew ev 0 s).mem 37 2 = encodeLE 2 0 := by
      rw [hmem]
      have h := getBytes_putBytes (putBytes s.mem 39 (nwEventSer ev)) 37 (encodeLE 2 0)
      rw [henclen] at h
      exact h
    simp only [getBytes, encodeLE] at hcnt
    have h37' : (37 : Int) + 1 = 38 := by norm_num
    rw [h37'] at hcnt
    have e1 : (nwEEPROMResetEventSetNew ev 0 s).mem 37 = 0 :=
      (List.cons.injEq _ _ _ _ ▸ hcnt).1
    have e2 : (nwEEPROMResetEventSetNew ev 0 s).mem 38 = 0 := by
      have h := (List.cons.injEq _ _ _ _ ▸ hcnt).2
      exact (List.cons.injEq _ _ _ _ ▸ h).1
    rw [e1, e2]
    decide
  · rw [hmem]
    have e1 : getBytes (putBytes (putBytes s.mem 39 (nwEventSer ev)) 37 (encodeLE 2 0)) 39 37 =
        getBytes (putBytes s.mem 39 (nwEventSer ev)) 39 37 := by
      apply getBytes_congr
      intro j hj
      apply putBytes_outside
      rw [henclen]
      right
      push_cast
      omega
    rw [e1]
    have e2 := getBytes_putBytes s.mem 39 (nwEventSer ev)
    rw [hserlen] at e2
    exact e2
  · intro x hx
    rw [hmem,
      putBytes_outside _ _ _ _ (by rw [henclen]; omega),
      putBytes_outside _ _ _ _ (by rw [hserlen]; omega)]
  · intro a ha
    have hacc : (nwEEPROMResetEventSetNew ev 0 s).acc =
        ((s.acc ++ accList 37 2) ++ accList 39 ((nwEventSer ev).length)) ++
          accList 37 ((encodeLE 2 0).length) := by
      rw [hsn]
      show ((nwEEPROMResetEventSet ev 0 (nwEEPROMResetEventCountGet s).2).acc ++
        accList nwResetCountAdr (encodeLE 2 ((0 : Int).emod 65536).toNat).length) = _
      show (((nwEEPROMResetEventCountGet s).2.acc ++
        accList (slotAdr 0) (nwEventSer ev).length) ++
        accList nwResetCountAdr (encodeLE 2 ((0 : Int).emod 65536).toNat).length) = _
      show (((s.acc ++ accList nwResetCountAdr 2) ++
        accList (slotAdr 0) (nwEventSer ev).length) ++
        accList nwResetCountAdr (encodeLE 2 ((0 : Int).emod 65536).toNat).length) = _
      rw [hSA0, nwResetCountAdr_eq]
      rfl
    rw [hacc] at ha
    rw [hserlen, henclen] at ha
    simp only [List.mem_append] at ha
    rcases ha with ((ha | ha) | ha) | ha
    · exact Or.inl ha
    · have := accList_bounds a 37 2 ha
      right; omega
    · have := accList_bounds a 39 37 ha
      right; omega
    · have := accList_bounds a 37 2 ha
      right; omega

/-- Witness for the amended C3: inserting `sampleEvent` into
`ffCountNvm` stores count 0 and writes the event at slot 0. -/
theorem C3_erased_count_witness :
    decodeInt16 ((nwEEPROMResetEventSetNew sampleEvent 0 ffCountNvm).mem 37)
        ((nwEEPROMResetEventSetNew sampleEvent 0 ffCountNvm).mem 38) = 0 ∧
    getBytes (nwEEPROMResetEventSetNew sampleEvent 0 ffCountNvm).mem 39 37 =
      nwEventSer sampleEvent ∧
    (∀ x : Int, x < 37 ∨ 76 ≤ x →
      (nwEEPROMResetEventSetNew sampleEvent 0 ffCountNvm).mem x = ffCountNvm.mem x) ∧
    (∀ a ∈ (nwEEPROMResetEventSetNew sampleEvent 0 ffCountNvm).acc,
      a ∈ ffCountNvm.acc ∨ (37 ≤ a ∧ a < 76)) :=
  C3_erased_count ffCountNvm sampleEvent
    (fun x => by simp only [ffCountNvm]; split <;> norm_num)
    (by decide) (by decide) (by decide)

/-! ## Claim C6 -/

theorem emod256_toNat_ofNat (x : Nat) (h : x < 256) :
    (((x : Nat) : Int).emod 256).toNat = x := by
  have h2 : ((x : Nat) : Int).emod 256 = ((x : Nat) : Int) :=
    Int.emod_eq_of_lt (by omega) (by omega)
  rw [h2]
  simp

/-- C6: reading slot `i`, setting its acknowledgement flag and writing it
back with `nwEEPROMResetEventSet( ev, i )` yields a log in which slot `i`
re-reads with `acked = true` and with version, timestamp and reason equal
to their previous values, while every byte outside slot `i` (all other
slots, the initialization event and the stored count) is unchanged. -/
theorem C6_acknowledge_frame (s : Nvm) (i : Int)
    (hm : ∀ x, s.mem x < 256) (h0 : 0 ≤ i) (h10 : i < 10) :
    (nwEEPROMResetEventGet (ackSlot i s) i).1.ack = true ∧
    (nwEEPROMResetEventGet (ackSlot i s) i).1.version =
      (nwEEPROMResetEventGet s i).1.version ∧
    (nwEEPROMResetEventGet (ackSlot i s) i).1.time =
      (nwEEPROMResetEventGet s i).1.time ∧
    (nwEEPROMResetEventGet (ackSlot i s) i).1.reason =
      (nwEEPROMResetEventGet s i).1.reason ∧
    (∀ x : Int, x < 39 + 37 * i ∨ 39 + 37 * i + 37 ≤ x →
      (ackSlot i s).mem x = s.mem x) := by
  have hSA : slotAdr i = 39 + 37 * i := slotAdr_eq i h0 (by omega)
  set bs := getBytes s.mem (slotAdr i) 37 with hbs
  have hbslen : bs.length = 37 := getBytes_length _ _ _
  have hbslt : ∀ b ∈ bs, b < 256 := getBytes_lt _ _ _ hm
  set e := (nwEEPROMResetEventGet s i).1 with he
  have hee : e = nwEventDeser bs := rfl
  set eAck := e.acknowledge true with heAck
  have hv' : eAck.version.length = 32 := by
    rw [heAck, nwEvent.acknowledge, hee, nwEventDeser]
    simp [hbslen]
  have hvlt' : ∀ b ∈ eAck.version, b < 256 := by
    intro b hb
    rw [heAck, nwEvent.acknowledge, hee, nwEventDeser] at hb
    exact hbslt b (List.take_subset _ _ hb)
  have hmem : (ackSlot i s).mem = putBytes s.mem (slotAdr i) (nwEventSer eAck) := rfl
  have hread : (nwEEPROMResetEventGet (ackSlot i s) i).1 =
      nwEventDeser (nwEventSer eAck) := by
    rw [resetEventGet_fst, hmem]
    have h := getBytes_putBytes s.mem (slotAdr i) (nwEventSer eAck)
    rw [nwEventSer_length eAck hv'] at h
    rw [h]
  obtain ⟨F1, F2, F3, F4⟩ := deser_ser_fields eAck hv' hvlt'
  -- the trailing stored byte and its bit split
  set b36 := bs.getD 36 0 with hb36
  have hb36lt : b36 < 256 := by
    rw [hb36, List.getD_eq_getElem?_getD, List.getElem?_eq_getElem (by omega)]
    exact hbslt _ (List.getElem_mem _)
  have hreason : e.reason = ((b36 &&& 127 : Nat) : Int) := rfl
  have hand_lt : b36 &&& 127 < 128 := Nat.lt_succ_of_le (Nat.and_le_right)
  have hpack : packAckReason e.reason true = (b36 &&& 127) ||| 128 := by
    rw [packAckReason, hreason, emod256_toNat_ofNat _ (by omega), if_pos rfl]
  refine ⟨?_, ?_, ?_, ?_, ?_⟩
  · rw [hread, F4, heAck, nwEvent.acknowledge]
    simp only []
    rw [hpack, (bits_or128 _ hand_lt).2]
    rfl
  · rw [hread, F1, heAck, nwEvent.acknowledge]
  · rw [hread, F2, heAck, nwEvent.acknowledge]
    simp only []
    have ht : e.time < 2 ^ 32 := by
      rw [hee, nwEventDeser]
      have hlen4 : ((bs.drop 32).take 4).length = 4 := by simp [hbslen]
      have hlt4 : ∀ b ∈ (bs.drop 32).take 4, b < 256 := fun b hb =>
        hbslt b (List.drop_subset _ _ (List.take_subset _ _ hb))
      have := decodeLE_lt _ hlt4
      rw [hlen4] at this
      exact this
    exact Nat.mod_eq_of_lt ht
  · rw [hread, F3, heAck, nwEvent.acknowledge]
    simp only []
    rw [hpack, (bits_or128 _ hand_lt).1, hreason]
  · intro x hx
    rw [hmem]
    apply putBytes_outside
    rw [nwEventSer_length eAck hv', hSA]
    push_cast
    omega

/-- Witness for C6 at slot 0 of the all-zero EEPROM. -/
theorem C6_acknowledge_frame_witness :
    (nwEEPROMResetEventGet (ackSlot 0 zeroNvm) 0).1.ack = true ∧
    (nwEEPROMResetEventGet (ackSlot 0 zeroNvm) 0).1.version =
      (nwEEPROMResetEventGet zeroNvm 0).1.version ∧
    (nwEEPROMResetEventGet (ackSlot 0 zeroNvm) 0).1.time =
      (nwEEPROMResetEventGet zeroNvm 0).1.time ∧
    (nwEEPROMResetEventGet (ackSlot 0 zeroNvm) 0).1.reason =
      (nwEEPROMResetEventGet zeroNvm 0).1.reason ∧
    (∀ x : Int, x < 39 + 37 * 0 ∨ 39 + 37 * 0 + 37 ≤ x →
      (ackSlot 0 zeroNvm).mem x = zeroNvm.mem x) :=
  C6_acknowledge_frame zeroNvm 0 (fun x => by simp [zeroNvm, Mem])
    (by norm_num) (by norm_num)

end NanoWatchdog
